import Mathlib

/-!
# Subdomain aggregation (`app/modules/subdomainer.go`)

A shallow embedding of the scatter-gather aggregator `Subdomains`, of the
goroutine body `concurrentSubdomainer`, and of the two adapters
`subdomainsInHackerTarget` and `subdomainsInThreatCrowd`.

* Go strings are byte sequences (`GoString`).
* A value of type `[]string` is a `Slice`: either `nil` or a non-nil slice with
  its elements.
* The goroutines of one call of `Subdomains` are a transition system
  (`step`, `exec`): each action is either the channel send of one worker or the
  next step of the calling goroutine.  Every interleaving is a list of actions.
  Each method is taken to return, and the receiver of `*output` to be ready.
  The `sync.WaitGroup` is left out, since nothing waits on it; the deferred
  `close(channel)` runs after the return, when every worker has sent.
* An adapter is a function of the network exchange it observes (`HttpGet`).
  The standard library is modelled by what it documents: `bufio.Scanner` with
  `bufio.ScanLines` by the lines it yields (`scanLoop`), `strings.SplitN` by
  `splitN2`, `json.Unmarshal` by its action on the decoded JSON value
  (`jsonUnmarshal`).
* `utils.FilterDuplicates` lives in a package that is not at hand and is
  modelled from the specification of the deduplicator.
-/

namespace Subdomainer

/-! ## Data model -/

/-- A Go `string`: an immutable sequence of bytes. -/
abbrev GoString := List UInt8

/-- The bytes (UTF-8) of a string literal of the source. -/
def str (s : String) : GoString := s.toList.flatMap String.utf8EncodeChar

/-- A Go value of type `[]string`. `nil` has no elements; a non-nil slice may
have none as well (`make([]string, 0)`). -/
inductive Slice where
  | nil
  | mk (elems : List GoString)
deriving DecidableEq, Repr

namespace Slice

/-- The elements of a slice, in order. -/
def items : Slice → List GoString
  | nil => []
  | mk elems => elems

/-- The builtin `len(s)`. -/
def len (s : Slice) : Nat := s.items.length

/-- The comparison `s == nil`. -/
def isNil : Slice → Bool
  | nil => true
  | mk _ => false

/-- The builtin `append(s, t...)`: with nothing to add the first operand is
returned as it is (a nil slice stays nil), otherwise the result is a non-nil
slice holding the elements of `s` followed by those of `t`. -/
def append (s t : Slice) : Slice :=
  match t.items with
  | [] => s
  | x :: xs => mk (s.items ++ x :: xs)

end Slice

/-- The pair `([]string, error)` a lookup method returns; `err = none` is the
nil error, `some msg` an error made by `errors.New(msg)`. -/
structure MethodResult where
  result : Slice
  err : Option String
deriving DecidableEq, Repr

/-! ## The deduplicator -/

/-- The loop of the deduplicator: `out` holds the distinct values met so far. -/
def filterLoop : List GoString → List GoString → List GoString
  | out, [] => out
  | out, x :: rest => if x ∈ out then filterLoop out rest else filterLoop (out ++ [x]) rest

/-- Modelled from the spec: `utils.FilterDuplicates` (package `app/utils`, not
part of the sources at hand).  Spec 4.3: input any sequence, including the
empty one; in the output every distinct value of the input appears exactly
once, values being compared by exact equality.  The model keeps the first
occurrence of each value.  A result with elements is a non-nil slice; for an
input without elements the spec leaves open whether the empty result is nil,
and `Subdomains` never calls the function on such an input. -/
def FilterDuplicates (arr : Slice) : Slice :=
  Slice.mk (filterLoop [] arr.items)

/-! ## `concurrentSubdomainer` and `Subdomains` -/

/-- The value `concurrentSubdomainer` puts on the completion channel once
`method(domain)` has returned `r`: nil when `err != nil`, else the result. -/
def concurrentSubdomainer (r : MethodResult) : Slice :=
  match r.err with
  | some _ => Slice.nil
  | none => r.result

/-- A worker goroutine `go concurrentSubdomainer(method, domain, &wg, &channel)`:
`running r` has still to send (its method returns `r`), `done` has sent. -/
inductive Worker where
  | running (r : MethodResult)
  | done
deriving DecidableEq, Repr

/-- The calling goroutine: in the gather loop with its counter `i` and the
accumulator `subdomains`, or past its send on `*output`. -/
inductive Main where
  | gather (i : Nat) (subdomains : Slice)
  | returned
deriving DecidableEq, Repr

/-- What happens on the two channels, in the order it happens. -/
inductive Event where
  | chanSend (k : Nat) (v : Slice)
  | chanRecv (v : Slice)
  | outSend (v : Slice)
deriving DecidableEq, Repr

/-- One call of `Subdomains` in flight. `n` is `len(availableMethods)`, which is
also the capacity of `channel`; `channel` is the buffer, oldest value first. -/
structure State where
  n : Nat
  workers : List Worker
  channel : List Slice
  main : Main
  trace : List Event
deriving DecidableEq, Repr

/-- A scheduling choice: worker `k` performs its send, or the caller moves. -/
inductive Action where
  | worker (k : Nat)
  | main
deriving DecidableEq, Repr

/-- The state after lines 23-38: every goroutine is launched, the channel is
empty, `subdomains, i := make([]string, 0), 0`. -/
def init (outcomes : List MethodResult) : State where
  n := outcomes.length
  workers := outcomes.map Worker.running
  channel := []
  main := Main.gather 0 (Slice.mk [])
  trace := []

/-- Lines 45-50: what is sent on `*output` for the accumulator `subdomains`. -/
def deliver (subdomains : Slice) : Slice :=
  if subdomains.len = 0 then Slice.nil
  else FilterDuplicates (FilterDuplicates subdomains)

/-- One atomic step; `none` when the chosen goroutine cannot move (it is
blocked on the channel or has finished).

* `worker k`: lines 59-64, the send `*channel <- ...`, which needs room in
  the buffer.
* `main` in the loop with `i < n`: `i++` and the receive of line 41, which
  needs a value in the buffer.
* `main` in the loop with `i >= n`: lines 45-50, the one send on `*output`. -/
def step (s : State) : Action → Option State
  | Action.worker k =>
    match s.workers[k]? with
    | some (Worker.running r) =>
      if s.channel.length < s.n then
        some { s with
          workers := s.workers.set k Worker.done
          channel := s.channel ++ [concurrentSubdomainer r]
          trace := s.trace ++ [Event.chanSend k (concurrentSubdomainer r)] }
      else none
    | _ => none
  | Action.main =>
    match s.main with
    | Main.gather i subdomains =>
      if i < s.n then
        match s.channel with
        | [] => none
        | v :: rest =>
          some { s with
            channel := rest
            main := Main.gather (i + 1) (subdomains.append v)
            trace := s.trace ++ [Event.chanRecv v] }
      else
        some { s with
          main := Main.returned
          trace := s.trace ++ [Event.outSend (deliver subdomains)] }
    | Main.returned => none

/-- Run a schedule; `none` when one of its actions is not enabled. -/
def exec (s : State) : List Action → Option State
  | [] => some s
  | a :: rest =>
    match step s a with
    | some s' => exec s' rest
    | none => none

/-- The values sent on `*output` in a trace, in order. -/
def outs (t : List Event) : List Slice :=
  t.filterMap fun e =>
    match e with
    | Event.outSend v => some v
    | _ => none

/-- The values received from the completion channel in a trace, in order. -/
def recvd (t : List Event) : List Slice :=
  t.filterMap fun e =>
    match e with
    | Event.chanRecv v => some v
    | _ => none

/-- The values sent on `*output` so far. -/
def outputs (s : State) : List Slice := outs s.trace

/-- Number of receives from the completion channel in a trace. -/
def recvCount (t : List Event) : Nat := (recvd t).length

/-- The values the workers that have not sent yet are going to send. -/
def pending (ws : List Worker) : List Slice :=
  ws.filterMap fun w =>
    match w with
    | Worker.running r => some (concurrentSubdomainer r)
    | Worker.done => none

/-- Steps left before the call is over: one send per running worker, the
receives the loop still has to make, and the send on `*output`. -/
def stepsLeft (s : State) : Nat :=
  (pending s.workers).length +
    match s.main with
    | Main.gather i _ => (s.n - i) + 1
    | Main.returned => 0

/-- The accumulator after the values `arrivals` have been received in this
order, starting from `make([]string, 0)`. -/
def collect (arrivals : List Slice) : Slice :=
  arrivals.foldl Slice.append (Slice.mk [])

/-- The schedule in which the workers send in launch order and the caller runs
afterwards. -/
def launchOrder (n : Nat) : List Action :=
  (List.range n).map Action.worker ++ List.replicate (n + 1) Action.main

/-! ## The adapters -/

/-- The network exchange of one adapter call, as the adapter observes it:
`getErr` is `err != nil` after `http.Get(url)`, `statusCode` is
`resp.StatusCode`, `readErr` is `err != nil` after `ioutil.ReadAll(resp.Body)`
and `body` is what was read.  A field is looked at only when the steps before
it went through. -/
structure HttpGet (β : Type) where
  getErr : Bool
  statusCode : Int
  readErr : Bool
  body : β

/-- The constant `bufio.MaxScanTokenSize`, the buffer limit of a `bufio.Scanner`
made by `bufio.NewScanner`. -/
def maxScanTokenSize : Nat := 64 * 1024

/-- The helper `dropCR` of `bufio.ScanLines`: drop one trailing carriage return. -/
def dropCR (data : List UInt8) : List UInt8 :=
  if data.getLast? = some 13 then data.dropLast else data

/-- The tokens `sc.Text()` takes in `for sc.Scan()` over a scanner with the
split function `bufio.ScanLines` and a buffer limit of `limit` bytes; `line`
holds the bytes of the line being read.

* a newline ends a line, which is delivered without its end-of-line marker
  (one optional carriage return and the newline); an empty line is delivered;
* at the end of the input, bytes left over are delivered as a last line;
* when the bytes of a line fill the whole buffer before its newline is seen
  (`limit` bytes or more), `Scan` returns false (`bufio.ErrTooLong`) and the
  loop ends. -/
def scanLoop (limit : Nat) : List UInt8 → List UInt8 → List GoString
  | line, [] =>
    if line = [] then [] else if line.length < limit then [dropCR line] else []
  | line, b :: rest =>
    if b = 10 then
      if line.length < limit then dropCR line :: scanLoop limit [] rest else []
    else scanLoop limit (line ++ [b]) rest

/-- The call `strings.SplitN(s, ",", 2)`: `s` cut at its first comma, or `s`
alone when it has none. -/
def splitN2 : GoString → List GoString
  | [] => [[]]
  | c :: rest =>
    if c = 44 then [[], rest]
    else
      match splitN2 rest with
      | first :: more => (c :: first) :: more
      | [] => [[c]]

/-- The adapter `subdomainsInHackerTarget` (lines 94-115) on the exchange `get`. -/
def subdomainsInHackerTarget (get : HttpGet (List UInt8)) : MethodResult :=
  if get.getErr ∨ get.statusCode ≠ 200 then
    ⟨Slice.nil, some "HackerTarget is not available"⟩
  else if get.readErr then
    ⟨Slice.nil, some "HackerTarget does not respond correctly"⟩
  else
    ⟨Slice.mk ((scanLoop maxScanTokenSize [] get.body).map fun text =>
      (splitN2 text).headD []), none⟩

/-- The lines of a text as the specification counts them, for comparison with
`scanLoop`: a line ends at a newline, its end-of-line marker (one optional
carriage return and the newline) is not part of it, and bytes after the last
newline form a last line.  There is no bound on the length of a line. -/
def specLines : List UInt8 → List UInt8 → List GoString
  | line, [] => if line = [] then [] else [dropCR line]
  | line, b :: rest =>
    if b = 10 then dropCR line :: specLines [] rest else specLines (line ++ [b]) rest

/-- The part of a line before its first comma, the whole line when it has no
comma, as the specification words it. -/
def beforeComma (line : GoString) : GoString := line.takeWhile fun c => c ≠ 44

/-- A body of three lines whose second line has twice `bufio.MaxScanTokenSize`
bytes, all of them the letter `x`. -/
def longLineBody : List UInt8 :=
  str "a.example.com,1.2.3.4" ++ 10 ::
    (List.replicate (2 * maxScanTokenSize) 120 ++ 10 :: str "b.example.com,5.6.7.8\n")

/-- A JSON value as `encoding/json` decodes it: strings and member names are
the unquoted bytes, a number is kept as its literal. -/
inductive JSON where
  | null
  | bool (b : Bool)
  | number (literal : GoString)
  | string (s : GoString)
  | array (elems : List JSON)
  | object (members : List (GoString × JSON))

/-- A response body as `json.Unmarshal` sees it: `none` when the bytes are not
a syntactically valid JSON text, else the value they denote. -/
abbrev JsonBody := Option JSON

/-- The name folding of `encoding/json`: ASCII letters to upper case, the long
s (U+017F) to `S` and the Kelvin sign (U+212A) to `K`; other bytes stay. -/
def foldName : GoString → GoString
  | [] => []
  | 0xC5 :: 0xBF :: rest => 83 :: foldName rest
  | 0xE2 :: 0x84 :: 0xAA :: rest => 75 :: foldName rest
  | c :: rest => (if 97 ≤ c ∧ c ≤ 122 then c - 32 else c) :: foldName rest

/-- Whether a member name selects the field tagged `json:"subdomains"`: the
match is exact or by folded name. -/
def isSubdomainsKey (key : GoString) : Bool :=
  key = str "subdomains" ∨ foldName key = str "SUBDOMAINS"

/-- The anonymous struct of lines 83-85 during `json.Unmarshal`, with the
decoder's saved error: `typeErr` is set once a value does not fit its target
(`UnmarshalTypeError`); decoding goes on after such an error. -/
structure Decoded where
  Results : Slice
  typeErr : Bool
deriving DecidableEq, Repr

/-- Decoding one element of a JSON array into a `string` that holds `old`: a
JSON string is stored, `null` leaves the target as it is, any other value is a
type error and leaves the target as it is. -/
def decodeElem (old : GoString) : JSON → GoString × Bool
  | JSON.string s => (s, false)
  | JSON.null => (old, false)
  | _ => (old, true)

/-- Decoding the elements of a JSON array into a `[]string` whose elements so
far are `old`: element `i` is decoded into the element at index `i`, a fresh
empty string past the end of `old`; what `old` holds past the length of the
array is cut off. -/
def decodeArray : List GoString → List JSON → List GoString × Bool
  | _, [] => ([], false)
  | old, e :: rest =>
    let here := decodeElem (old.headD []) e
    let after := decodeArray old.tail rest
    (here.1 :: after.1, here.2 || after.2)

/-- Decoding a JSON value into the field `Results []string`: `null` sets the
slice to nil, an array gives a non-nil slice (empty for `[]`), any other value
is a type error and leaves the field as it is. -/
def decodeField (d : Decoded) : JSON → Decoded
  | JSON.null => { d with Results := Slice.nil }
  | JSON.array elems =>
    { Results := Slice.mk (decodeArray d.Results.items elems).1
      typeErr := d.typeErr || (decodeArray d.Results.items elems).2 }
  | _ => { d with typeErr := true }

/-- Decoding the members of a JSON object, in order, into the struct: members
with another name are skipped. -/
def decodeObject (members : List (GoString × JSON)) (d : Decoded) : Decoded :=
  members.foldl (fun acc m => if isSubdomainsKey m.1 then decodeField acc m.2 else acc) d

/-- The call `json.Unmarshal(body, &subdomains)` of line 86 on a zero struct:
the struct afterwards and whether the returned error is non-nil.  Invalid
syntax is an error; `null` changes nothing; an object is decoded member by
member; any other value does not fit a struct. -/
def jsonUnmarshal : JsonBody → Decoded
  | none => ⟨Slice.nil, true⟩
  | some JSON.null => ⟨Slice.nil, false⟩
  | some (JSON.object members) => decodeObject members ⟨Slice.nil, false⟩
  | some _ => ⟨Slice.nil, true⟩

/-- The adapter `subdomainsInThreatCrowd` (lines 69-92) on the exchange `get`. -/
def subdomainsInThreatCrowd (get : HttpGet JsonBody) : MethodResult :=
  if get.getErr ∨ get.statusCode ≠ 200 then
    ⟨Slice.nil, some "ThreatCrowd is not available"⟩
  else if get.readErr then
    ⟨Slice.nil, some "ThreatCrowd does not respond correctly"⟩
  else if (jsonUnmarshal get.body).typeErr then
    ⟨Slice.nil, some "Bad JSON format using ThreatCrowd"⟩
  else
    ⟨(jsonUnmarshal get.body).Results, none⟩

/-- The values of the members of an object that select the field, in order. -/
def fieldValues (members : List (GoString × JSON)) : List JSON :=
  (members.filter fun m => isSubdomainsKey m.1).map fun m => m.2

/-- Whether a JSON value is an array. -/
def JSON.isArray : JSON → Bool
  | JSON.array _ => true
  | _ => false

/-- Whether a body is a JSON object whose last `subdomains` member is an array. -/
def endsWithArray : JsonBody → Bool
  | some (JSON.object members) =>
    match (fieldValues members).getLast? with
    | some v => v.isArray
    | none => false
  | _ => false

/-- Whether a JSON value is a string or `null`. -/
def JSON.isStringOrNull : JSON → Bool
  | JSON.string _ => true
  | JSON.null => true
  | _ => false

/-- Whether a JSON value has the shape of a list of strings: `null`, or an
array of strings and `null`s. -/
def JSON.fitsResults : JSON → Bool
  | JSON.null => true
  | JSON.array elems => elems.all JSON.isStringOrNull
  | _ => false

/-- Whether a body is valid JSON of the shape the adapter expects: `null`, or
an object in which every `subdomains` member has the shape of a list of
strings. -/
def fitsShape : JsonBody → Bool
  | some JSON.null => true
  | some (JSON.object members) => (fieldValues members).all JSON.fitsResults
  | _ => false

/-- What the two backends answer during one call of `Subdomains`. -/
structure Network where
  hackerTarget : HttpGet (List UInt8)
  threatCrowd : HttpGet JsonBody

/-- Lines 23-25 and 59: what the methods of `availableMethods` return. -/
def availableMethods (net : Network) : List MethodResult :=
  [subdomainsInHackerTarget net.hackerTarget, subdomainsInThreatCrowd net.threatCrowd]

/-- The call `Subdomains(domain, output)` right after its goroutines are
launched. -/
def Subdomains (net : Network) : State := init (availableMethods net)

/-- The values worker `k` has put on the completion channel in a trace. -/
def sendsOf (k : Nat) (t : List Event) : List Slice :=
  t.filterMap fun e =>
    match e with
    | Event.chanSend j v => if j = k then some v else none
    | _ => none

/-- What the rest of a call can observe of a worker: whether it has sent, and
if not the elements of the value it is going to send. -/
def Worker.view : Worker → Option (List GoString)
  | Worker.running r => some (concurrentSubdomainer r).items
  | Worker.done => none

/-- What the caller can observe of a state: the elements of the values in
flight (not whether an empty value is nil), its own control state and what it
has sent on `*output`. -/
def State.view (s : State) :
    Nat × List (Option (List GoString)) × List (List GoString) × Main × List Slice :=
  (s.n, s.workers.map Worker.view, s.channel.map Slice.items, s.main, outs s.trace)

/-- The number of items the workers put on the completion channel in all. -/
def totalItems (outcomes : List MethodResult) : Nat :=
  (outcomes.map fun r => (concurrentSubdomainer r).len).sum

/-- The state a schedule leads to (the initial state when the schedule cannot
be run). -/
def finalOf (outcomes : List MethodResult) (acts : List Action) : State :=
  (exec (init outcomes) acts).getD (init outcomes)

/-- Scenario data: adapter A finds one host. -/
def demoA : MethodResult := ⟨Slice.mk [str "x.example.com"], none⟩

/-- Scenario data: adapter B finds two hosts, one of them known to A. -/
def demoB : MethodResult := ⟨Slice.mk [str "x.example.com", str "z.example.com"], none⟩

/-- Scenario data: adapter C finds one host, the second of B. -/
def demoC : MethodResult := ⟨Slice.mk [str "z.example.com"], none⟩

/-- Scenario data: an adapter that finds two hosts. -/
def demoXY : MethodResult := ⟨Slice.mk [str "x.example.com", str "y.example.com"], none⟩

/-- Scenario data: an adapter whose backend is unreachable. -/
def demoFailure : MethodResult := ⟨Slice.nil, some "HackerTarget is not available"⟩

/-- Scenario data: an adapter that succeeds with no item. -/
def demoEmpty : MethodResult := ⟨Slice.mk [], none⟩

/-! ## Invariants of a call -/

/-- What holds in every state of a call whose workers send the values `msgs`
(in launch order).

* `perm`: the values received, those in the buffer and those still to be sent
  are together the values `msgs`.
* `main_ok`: in the loop, `i` counts the receives, the accumulator is the
  concatenation of what was received and nothing was sent on `*output`; after
  the return the trace ends with the one send on `*output`, made after `n`
  receives. -/
structure Inv (msgs : List Slice) (s : State) : Prop where
  n_eq : s.n = msgs.length
  perm : (recvd s.trace ++ s.channel ++ pending s.workers).Perm msgs
  main_ok :
    match s.main with
    | Main.gather i subdomains =>
      i = (recvd s.trace).length ∧ subdomains = collect (recvd s.trace) ∧ outs s.trace = []
    | Main.returned =>
      ∃ pre, s.trace = pre ++ [Event.outSend (deliver (collect (recvd pre)))]
        ∧ (recvd pre).length = s.n ∧ outs pre = []

/-- Per worker: a worker that has not sent has no send in the trace, a worker
that has sent has exactly one, of the value `concurrentSubdomainer` computes
from what its method returned. -/
structure SendInv (outcomes : List MethodResult) (s : State) : Prop where
  running : ∀ (k : Nat) (r : MethodResult), s.workers[k]? = some (Worker.running r) →
    outcomes[k]? = some r ∧ sendsOf k s.trace = []
  done : ∀ (k : Nat), s.workers[k]? = some Worker.done →
    ∃ r, outcomes[k]? = some r ∧ sendsOf k s.trace = [concurrentSubdomainer r]
  absent : ∀ (k : Nat), s.workers[k]? = none → outcomes[k]? = none

/-! ## Slices -/

@[simp] theorem Slice.items_nil : Slice.nil.items = [] := rfl

@[simp] theorem Slice.items_mk (elems : List GoString) : (Slice.mk elems).items = elems := rfl

@[simp] theorem Slice.len_nil : Slice.nil.len = 0 := rfl

/-! ## The deduplicator: content of the result -/

theorem mem_filterLoop (xs : List GoString) :
    ∀ (out : List GoString) (y : GoString), y ∈ filterLoop out xs ↔ y ∈ out ∨ y ∈ xs := by
  induction xs with
  | nil => intro out y; simp [filterLoop]
  | cons x rest ih =>
    intro out y
    unfold filterLoop
    split
    · rename_i hx
      rw [ih]
      constructor
      · rintro (h | h)
        · exact Or.inl h
        · exact Or.inr (List.mem_cons_of_mem _ h)
      · rintro (h | h)
        · exact Or.inl h
        · rcases List.mem_cons.mp h with rfl | h
          · exact Or.inl hx
          · exact Or.inr h
    · rw [ih]
      simp only [List.mem_append, List.mem_singleton, List.mem_cons]
      tauto

theorem nodup_filterLoop (xs : List GoString) :
    ∀ (out : List GoString), out.Nodup → (filterLoop out xs).Nodup := by
  induction xs with
  | nil => intro out h; simpa [filterLoop] using h
  | cons x rest ih =>
    intro out h
    unfold filterLoop
    split
    · exact ih out h
    · rename_i hx
      apply ih
      rw [List.nodup_append]
      refine ⟨h, List.nodup_singleton x, ?_⟩
      intro a ha hb
      rw [List.mem_singleton] at hb
      subst hb
      exact hx ha

theorem mem_FilterDuplicates (s : Slice) (y : GoString) :
    y ∈ (FilterDuplicates s).items ↔ y ∈ s.items := by
  simp [FilterDuplicates, mem_filterLoop]

theorem nodup_FilterDuplicates (s : Slice) : (FilterDuplicates s).items.Nodup := by
  simpa [FilterDuplicates] using nodup_filterLoop s.items [] List.nodup_nil

/-! ## `append` and the accumulator -/

theorem Slice.items_append (s t : Slice) : (s.append t).items = s.items ++ t.items := by
  unfold Slice.append
  split
  · rename_i h; simp [h]
  · rename_i x xs h; simp [h]

theorem items_foldl_append (arrivals : List Slice) :
    ∀ acc : Slice, (arrivals.foldl Slice.append acc).items
      = acc.items ++ arrivals.flatMap Slice.items := by
  induction arrivals with
  | nil => intro acc; simp
  | cons v rest ih =>
    intro acc
    simp [List.foldl_cons, ih, Slice.items_append, List.flatMap_cons, List.append_assoc]

theorem items_collect (arrivals : List Slice) :
    (collect arrivals).items = arrivals.flatMap Slice.items := by
  simp [collect, items_foldl_append]

theorem collect_snoc (arrivals : List Slice) (v : Slice) :
    collect (arrivals ++ [v]) = (collect arrivals).append v := by
  simp [collect, List.foldl_append]

/-! ## What is delivered -/

theorem mem_deliver (s : Slice) (y : GoString) : y ∈ (deliver s).items ↔ y ∈ s.items := by
  unfold deliver
  split
  · rename_i h
    have : s.items = [] := List.length_eq_zero.mp h
    simp [this]
  · rw [mem_FilterDuplicates, mem_FilterDuplicates]

theorem nodup_deliver (s : Slice) : (deliver s).items.Nodup := by
  unfold deliver
  split
  · simp
  · exact nodup_FilterDuplicates _

theorem deliver_eq_nil_iff (s : Slice) : deliver s = Slice.nil ↔ s.len = 0 := by
  unfold deliver
  split
  · rename_i h; simp [h]
  · rename_i h; simp [h, FilterDuplicates]

theorem deliver_items_ne_nil (s : Slice) (h : deliver s ≠ Slice.nil) : (deliver s).items ≠ [] := by
  have hlen : s.len ≠ 0 := fun h0 => h ((deliver_eq_nil_iff s).mpr h0)
  have hne : s.items ≠ [] := fun h0 => hlen (by simp [Slice.len, h0])
  obtain ⟨y, hy⟩ := List.exists_mem_of_ne_nil _ hne
  exact List.ne_nil_of_mem ((mem_deliver s y).mpr hy)

/-! ## Traces -/

@[simp] theorem outs_nil : outs [] = [] := rfl

@[simp] theorem recvd_nil : recvd [] = [] := rfl

theorem outs_append (t u : List Event) : outs (t ++ u) = outs t ++ outs u := by
  simp [outs, List.filterMap_append]

theorem recvd_append (t u : List Event) : recvd (t ++ u) = recvd t ++ recvd u := by
  simp [recvd, List.filterMap_append]

@[simp] theorem outs_chanSend (k : Nat) (v : Slice) : outs [Event.chanSend k v] = [] := rfl

@[simp] theorem outs_chanRecv (v : Slice) : outs [Event.chanRecv v] = [] := rfl

@[simp] theorem outs_outSend (v : Slice) : outs [Event.outSend v] = [v] := rfl

@[simp] theorem recvd_chanSend (k : Nat) (v : Slice) : recvd [Event.chanSend k v] = [] := rfl

@[simp] theorem recvd_chanRecv (v : Slice) : recvd [Event.chanRecv v] = [v] := rfl

@[simp] theorem recvd_outSend (v : Slice) : recvd [Event.outSend v] = [] := rfl

/-! ## Workers -/

theorem pending_set_done (ws : List Worker) :
    ∀ (k : Nat) (r : MethodResult), ws[k]? = some (Worker.running r) →
      (concurrentSubdomainer r :: pending (ws.set k Worker.done)).Perm (pending ws) := by
  induction ws with
  | nil => intro k r h; simp at h
  | cons w rest ih =>
    intro k r h
    cases k with
    | zero =>
      simp only [List.getElem?_cons_zero, Option.some.injEq] at h
      subst h
      simp [pending, List.filterMap_cons]
    | succ k =>
      simp only [List.getElem?_cons_succ] at h
      have ih' := ih k r h
      cases w with
      | running r' =>
        simp only [pending, List.set_cons_succ, List.filterMap_cons] at ih' ⊢
        exact (List.Perm.swap _ _ _).trans (List.Perm.cons _ ih')
      | done =>
        simpa [pending, List.filterMap_cons] using ih'

theorem pending_ne_nil_of_running (ws : List Worker) (k : Nat) (r : MethodResult)
    (h : ws[k]? = some (Worker.running r)) : pending ws ≠ [] := by
  intro h0
  have hp := (pending_set_done ws k r h).length_eq
  rw [h0] at hp
  simp at hp

theorem exists_running_of_pending (ws : List Worker) (h : pending ws ≠ []) :
    ∃ (k : Nat) (r : MethodResult), ws[k]? = some (Worker.running r) := by
  induction ws with
  | nil => exact absurd rfl h
  | cons w rest ih =>
    cases w with
    | running r => exact ⟨0, r, List.getElem?_cons_zero⟩
    | done =>
      have h' : pending rest ≠ [] := by simpa [pending, List.filterMap_cons] using h
      obtain ⟨k, r, hk⟩ := ih h'
      refine ⟨k + 1, r, ?_⟩
      rw [List.getElem?_cons_succ]
      exact hk

theorem pending_map_running (outcomes : List MethodResult) :
    pending (outcomes.map Worker.running) = outcomes.map concurrentSubdomainer := by
  induction outcomes with
  | nil => rfl
  | cons r rest ih => simpa [pending, List.filterMap_cons] using ih

/-! ## The invariant of a call -/

theorem Inv.length_eq {msgs : List Slice} {s : State} (h : Inv msgs s) :
    (recvd s.trace).length + s.channel.length + (pending s.workers).length = s.n := by
  have := h.perm.length_eq
  rw [h.n_eq, ← this]
  simp only [List.length_append]

theorem Inv.at_init (outcomes : List MethodResult) :
    Inv (outcomes.map concurrentSubdomainer) (init outcomes) := by
  refine ⟨by simp [Subdomainer.init], ?_, ?_⟩
  · simp [Subdomainer.init, pending_map_running]
  · simp [Subdomainer.init, collect]

theorem Inv.returned_pending {msgs : List Slice} {s : State} (h : Inv msgs s)
    (hm : s.main = Main.returned) : pending s.workers = [] ∧ s.channel = [] := by
  have hlen := h.length_eq
  have hmain := h.main_ok
  rw [hm] at hmain
  obtain ⟨pre, ht, hn, _⟩ := hmain
  have hr : (recvd s.trace).length = s.n := by
    rw [ht, recvd_append, recvd_outSend, List.append_nil, hn]
  constructor
  · apply List.length_eq_zero.mp; omega
  · apply List.length_eq_zero.mp; omega

theorem Inv.after_step {msgs : List Slice} {s s' : State} {a : Action} (h : Inv msgs s)
    (hs : step s a = some s') : Inv msgs s' := by
  cases a with
  | worker k =>
    simp only [Subdomainer.step] at hs
    split at hs
    · rename_i r hk
      split at hs
      · simp only [Option.some.injEq] at hs
        subst hs
        refine ⟨h.n_eq, ?_, ?_⟩
        · simp only [recvd_append, recvd_chanSend, List.append_nil]
          refine List.Perm.trans ?_ h.perm
          rw [List.append_assoc (recvd s.trace), List.append_assoc (recvd s.trace),
            List.append_assoc s.channel]
          refine List.Perm.append_left _ (List.Perm.append_left _ ?_)
          exact pending_set_done s.workers k r hk
        · have hmain := h.main_ok
          cases hm : s.main with
          | gather i subdomains =>
            rw [hm] at hmain
            simpa [recvd_append, outs_append] using hmain
          | returned =>
            exact absurd (h.returned_pending hm).1 (pending_ne_nil_of_running _ k r hk)
      · exact absurd hs (by simp)
    · exact absurd hs (by simp)
  | main =>
    simp only [Subdomainer.step] at hs
    split at hs
    · rename_i i subdomains hm
      have hmain := h.main_ok
      rw [hm] at hmain
      obtain ⟨hi, hsub, hout⟩ := hmain
      split at hs
      · split at hs
        · exact absurd hs (by simp)
        · rename_i v rest hc
          simp only [Option.some.injEq] at hs
          subst hs
          refine ⟨h.n_eq, ?_, ?_⟩
          · have hp := h.perm
            rw [hc] at hp
            simpa [recvd_append, List.append_assoc] using hp
          · simp [recvd_append, outs_append, hi, hsub, hout, collect_snoc]
      · rename_i hlt
        simp only [Option.some.injEq] at hs
        subst hs
        refine ⟨h.n_eq, ?_, ?_⟩
        · simpa [recvd_append] using h.perm
        · refine ⟨s.trace, ?_, ?_, hout⟩
          · simp [hsub]
          · have := h.length_eq
            show (recvd s.trace).length = s.n
            omega
    · exact absurd hs (by simp)

theorem Inv.after_exec {msgs : List Slice} (acts : List Action) :
    ∀ {s s' : State}, Inv msgs s → exec s acts = some s' → Inv msgs s' := by
  induction acts with
  | nil =>
    intro s s' h hs
    simp only [Subdomainer.exec, Option.some.injEq] at hs
    exact hs ▸ h
  | cons a rest ih =>
    intro s s' h hs
    simp only [Subdomainer.exec] at hs
    split at hs
    · rename_i s1 h1
      exact ih (h.after_step h1) hs
    · exact absurd hs (by simp)

/-- Every state of a call of `Subdomains` on the method results `outcomes`
satisfies the invariant. -/
theorem inv_of_exec {outcomes : List MethodResult} {acts : List Action} {s : State}
    (hs : exec (init outcomes) acts = some s) :
    Inv (outcomes.map concurrentSubdomainer) s :=
  Inv.after_exec acts (Inv.at_init outcomes) hs

/-! ## The delivered value -/

theorem outputs_of_gather {msgs : List Slice} {s : State} (h : Inv msgs s) (i : Nat)
    (subdomains : Slice) (hm : s.main = Main.gather i subdomains) : outputs s = [] := by
  have hmain := h.main_ok
  rw [hm] at hmain
  exact hmain.2.2

theorem outputs_of_returned {msgs : List Slice} {s : State} (h : Inv msgs s)
    (hm : s.main = Main.returned) :
    ∃ arrivals, arrivals.Perm msgs ∧ outputs s = [deliver (collect arrivals)] := by
  have hmain := h.main_ok
  rw [hm] at hmain
  obtain ⟨pre, ht, _, hout⟩ := hmain
  obtain ⟨hp, hc⟩ := h.returned_pending hm
  refine ⟨recvd pre, ?_, ?_⟩
  · have hperm := h.perm
    rw [hp, hc, ht] at hperm
    simpa [recvd_append] using hperm
  · simp [outputs, ht, outs_append, hout]

theorem output_spec {msgs : List Slice} {s : State} (h : Inv msgs s) {v : Slice}
    (hv : v ∈ outputs s) :
    ∃ arrivals, arrivals.Perm msgs ∧ v = deliver (collect arrivals) := by
  cases hm : s.main with
  | gather i subdomains =>
    rw [outputs_of_gather h i subdomains hm] at hv
    exact absurd hv (List.not_mem_nil v)
  | returned =>
    obtain ⟨arrivals, hp, ho⟩ := outputs_of_returned h hm
    rw [ho, List.mem_singleton] at hv
    exact ⟨arrivals, hp, hv⟩

theorem items_concurrentSubdomainer (r : MethodResult) (x : GoString) :
    x ∈ (concurrentSubdomainer r).items ↔ r.err = none ∧ x ∈ r.result.items := by
  unfold concurrentSubdomainer
  split
  · rename_i e he; simp [he]
  · rename_i he; simp [he]

theorem mem_output_iff {outcomes : List MethodResult} {arrivals : List Slice}
    (hp : arrivals.Perm (outcomes.map concurrentSubdomainer)) (x : GoString) :
    x ∈ (deliver (collect arrivals)).items
      ↔ ∃ r ∈ outcomes, r.err = none ∧ x ∈ r.result.items := by
  rw [mem_deliver, items_collect, (hp.flatMap_right Slice.items).mem_iff]
  simp only [List.mem_flatMap, List.mem_map]
  constructor
  · rintro ⟨m, ⟨r, hr, rfl⟩, hx⟩
    exact ⟨r, hr, (items_concurrentSubdomainer r x).mp hx⟩
  · rintro ⟨r, hr, hx⟩
    exact ⟨_, ⟨r, hr, rfl⟩, (items_concurrentSubdomainer r x).mpr hx⟩

theorem len_collect {outcomes : List MethodResult} {arrivals : List Slice}
    (hp : arrivals.Perm (outcomes.map concurrentSubdomainer)) :
    (collect arrivals).len = totalItems outcomes := by
  unfold Slice.len totalItems
  rw [items_collect, (hp.flatMap_right Slice.items).length_eq, List.length_flatMap,
    List.map_map]
  rfl

/-! ## Progress and termination -/

theorem stepsLeft_step {s s' : State} {a : Action}
    (hs : step s a = some s') : stepsLeft s = stepsLeft s' + 1 := by
  cases a with
  | worker k =>
    simp only [Subdomainer.step] at hs
    split at hs
    · rename_i r hk
      split at hs
      · simp only [Option.some.injEq] at hs
        subst hs
        have hp := (pending_set_done s.workers k r hk).length_eq
        simp only [List.length_cons] at hp
        simp only [stepsLeft]
        omega
      · exact absurd hs (by simp)
    · exact absurd hs (by simp)
  | main =>
    simp only [Subdomainer.step] at hs
    split at hs
    · rename_i i subdomains hm
      split at hs
      · split at hs
        · exact absurd hs (by simp)
        · rename_i hlt v rest hc
          simp only [Option.some.injEq] at hs
          subst hs
          simp only [stepsLeft, hm]
          omega
      · rename_i hlt
        simp only [Option.some.injEq] at hs
        subst hs
        simp only [stepsLeft, hm]
        omega
    · exact absurd hs (by simp)

theorem stepsLeft_exec (acts : List Action) :
    ∀ {s s' : State}, exec s acts = some s' →
      stepsLeft s = acts.length + stepsLeft s' := by
  induction acts with
  | nil =>
    intro s s' hs
    simp only [Subdomainer.exec, Option.some.injEq] at hs
    simp [hs]
  | cons a rest ih =>
    intro s s' hs
    simp only [Subdomainer.exec] at hs
    split at hs
    · rename_i s1 h1
      have := ih hs
      have := stepsLeft_step h1
      simp only [List.length_cons]
      omega
    · exact absurd hs (by simp)

theorem stepsLeft_init (outcomes : List MethodResult) :
    stepsLeft (init outcomes) = 2 * outcomes.length + 1 := by
  simp [stepsLeft, init, pending_map_running]
  omega

theorem progress {msgs : List Slice} {s : State} (h : Inv msgs s)
    (hm : s.main ≠ Main.returned) : ∃ a s', step s a = some s' := by
  cases hmain : s.main with
  | returned => exact absurd hmain hm
  | gather i subdomains =>
    by_cases hlt : i < s.n
    · cases hc : s.channel with
      | cons v rest =>
        exact ⟨Action.main, _, by simp only [Subdomainer.step, hmain, hlt, hc, if_true]; rfl⟩
      | nil =>
        have hlen := h.length_eq
        have hi := h.main_ok
        rw [hmain] at hi
        have hpend : pending s.workers ≠ [] := by
          intro h0
          rw [h0, hc] at hlen
          simp only [List.length_nil] at hlen
          omega
        obtain ⟨k, r, hk⟩ := exists_running_of_pending s.workers hpend
        have hroom : s.channel.length < s.n := by rw [hc]; simp only [List.length_nil]; omega
        exact ⟨Action.worker k, _, by simp only [Subdomainer.step, hk, hroom, if_true]; rfl⟩
    · exact ⟨Action.main, _, by simp only [Subdomainer.step, hmain, hlt, if_false]; rfl⟩

theorem split_outSend_unique (pre : List Event) :
    ∀ (pre' post' : List Event) (v v' : Slice), outs pre = [] →
      pre ++ [Event.outSend v] = pre' ++ Event.outSend v' :: post' →
      pre' = pre ∧ v' = v ∧ post' = [] := by
  induction pre with
  | nil =>
    intro pre' post' v v' _ h
    cases pre' with
    | nil =>
      simp only [List.nil_append, List.cons.injEq, Event.outSend.injEq] at h
      exact ⟨rfl, h.1.symm, h.2.symm⟩
    | cons e t =>
      simp only [List.nil_append, List.cons_append, List.cons.injEq] at h
      exact absurd h.2.symm (by simp)
  | cons e t ih =>
    intro pre' post' v v' ho h
    cases pre' with
    | nil =>
      simp only [List.nil_append, List.cons_append, List.cons.injEq] at h
      rw [h.1] at ho
      simp [outs, List.filterMap_cons] at ho
    | cons e' t' =>
      simp only [List.cons_append, List.cons.injEq] at h
      have ht : outs t = [] := by
        have : outs ([e] ++ t) = [] := ho
        rw [outs_append] at this
        exact (List.append_eq_nil.mp this).2
      obtain ⟨h1, h2, h3⟩ := ih t' post' v v' ht h.2
      exact ⟨by rw [h.1, h1], h2, h3⟩

/-! ## Properties of the aggregator -/

/-- C1: for every list of method results and every interleaving, a slice sent
on the output channel has no two equal elements; it is either the nil signal or
`FilterDuplicates` applied twice to the concatenation of the values received
from the workers, which are the results of the successful methods (and nil for
the failed ones) in arrival order. -/
theorem Subdomains_output_nodup (outcomes : List MethodResult) (acts : List Action)
    (s : State) (hs : exec (init outcomes) acts = some s) (v : Slice) (hv : v ∈ outputs s) :
    v.items.Nodup ∧
      (v = Slice.nil ∨ ∃ arrivals, arrivals.Perm (outcomes.map concurrentSubdomainer) ∧
        v = FilterDuplicates (FilterDuplicates (collect arrivals))) := by
  obtain ⟨arrivals, hp, rfl⟩ := output_spec (inv_of_exec hs) hv
  refine ⟨nodup_deliver _, ?_⟩
  by_cases h0 : (collect arrivals).len = 0
  · exact Or.inl ((deliver_eq_nil_iff _).mpr h0)
  · exact Or.inr ⟨arrivals, hp, by simp [deliver, h0]⟩

/-- C1 at the scenario A, B in launch order. -/
theorem Subdomains_output_nodup_witness :
    exec (init [demoA, demoB]) (launchOrder 2) = some (finalOf [demoA, demoB] (launchOrder 2))
      ∧ Slice.mk [str "x.example.com", str "z.example.com"]
          ∈ outputs (finalOf [demoA, demoB] (launchOrder 2))
      ∧ (Slice.mk [str "x.example.com", str "z.example.com"]).items.Nodup :=
  ⟨by decide, by decide,
    (Subdomains_output_nodup [demoA, demoB] (launchOrder 2)
      (finalOf [demoA, demoB] (launchOrder 2)) (by decide)
      (Slice.mk [str "x.example.com", str "z.example.com"]) (by decide)).1⟩

/-- C2: when at least one method succeeds with at least one item, every value
sent on the output channel is a non-nil, non-empty slice whose elements are
exactly the items of the successful methods, and a call that has returned has
sent such a value. -/
theorem Subdomains_output_union (outcomes : List MethodResult) (acts : List Action)
    (s : State) (hs : exec (init outcomes) acts = some s)
    (hsucc : ∃ r ∈ outcomes, r.err = none ∧ r.result.items ≠ []) :
    (∀ v ∈ outputs s, v.isNil = false ∧ v.items ≠ [] ∧
        ∀ x, x ∈ v.items ↔ ∃ r ∈ outcomes, r.err = none ∧ x ∈ r.result.items)
      ∧ (s.main = Main.returned → ∃ v, outputs s = [v]) := by
  obtain ⟨r, hr, herr, hne⟩ := hsucc
  constructor
  · intro v hv
    obtain ⟨arrivals, hp, rfl⟩ := output_spec (inv_of_exec hs) hv
    obtain ⟨y, hy⟩ := List.exists_mem_of_ne_nil _ hne
    have hmem : y ∈ (deliver (collect arrivals)).items :=
      (mem_output_iff hp y).mpr ⟨r, hr, herr, hy⟩
    refine ⟨?_, List.ne_nil_of_mem hmem, fun x => mem_output_iff hp x⟩
    cases hd : deliver (collect arrivals) with
    | nil => rw [hd] at hmem; simp at hmem
    | mk elems => rfl
  · intro hm
    obtain ⟨arrivals, _, ho⟩ := outputs_of_returned (inv_of_exec hs) hm
    exact ⟨_, ho⟩

/-- C2 at the scenario A, B in launch order: the output has the two names. -/
theorem Subdomains_output_union_witness :
    exec (init [demoA, demoB]) (launchOrder 2) = some (finalOf [demoA, demoB] (launchOrder 2))
      ∧ (∃ r ∈ [demoA, demoB], r.err = none ∧ r.result.items ≠ [])
      ∧ outputs (finalOf [demoA, demoB] (launchOrder 2))
          = [Slice.mk [str "x.example.com", str "z.example.com"]]
      ∧ (Slice.mk [str "x.example.com", str "z.example.com"]).len = 2
      ∧ ((∀ v ∈ outputs (finalOf [demoA, demoB] (launchOrder 2)),
            v.isNil = false ∧ v.items ≠ [] ∧
            ∀ x, x ∈ v.items ↔ ∃ r ∈ [demoA, demoB], r.err = none ∧ x ∈ r.result.items)
          ∧ ((finalOf [demoA, demoB] (launchOrder 2)).main = Main.returned →
              ∃ v, outputs (finalOf [demoA, demoB] (launchOrder 2)) = [v])) :=
  ⟨by decide, ⟨demoB, by decide, by decide, by decide⟩, by decide, by decide,
    Subdomains_output_union [demoA, demoB] (launchOrder 2)
      (finalOf [demoA, demoB] (launchOrder 2)) (by decide)
      ⟨demoB, by decide, by decide, by decide⟩⟩

/-- The scenario of C2 under every interleaving: with A returning x.example.com
and B returning x.example.com and z.example.com, a call that has returned has
sent exactly one slice, of length 2, containing both names. -/
theorem scenario_two_adapters (acts : List Action) (s : State)
    (hs : exec (init [demoA, demoB]) acts = some s) (hm : s.main = Main.returned) :
    ∃ v, outputs s = [v] ∧ v.len = 2 ∧ str "x.example.com" ∈ v.items
      ∧ str "z.example.com" ∈ v.items := by
  obtain ⟨arrivals, hp, hv⟩ := outputs_of_returned (inv_of_exec hs) hm
  have hmem := mem_output_iff hp
  have hnd := nodup_deliver (collect arrivals)
  generalize deliver (collect arrivals) = v at hv hmem hnd
  have hperm : v.items.Perm [str "x.example.com", str "z.example.com"] := by
    rw [List.perm_ext_iff_of_nodup hnd (by decide)]
    intro x
    rw [hmem]
    simp only [List.mem_cons, List.mem_singleton, List.not_mem_nil, or_false]
    constructor
    · rintro ⟨r, (rfl | rfl), _, hx⟩
      · left; simpa [demoA] using hx
      · simpa [demoB] using hx
    · rintro (rfl | rfl)
      · exact ⟨demoA, Or.inl rfl, rfl, by simp [demoA]⟩
      · exact ⟨demoB, Or.inr rfl, rfl, by simp [demoB]⟩
  refine ⟨v, hv, ?_, ?_, ?_⟩
  · simpa [Slice.len] using hperm.length_eq
  · exact hperm.mem_iff.mpr (by simp)
  · exact hperm.mem_iff.mpr (by simp)

theorem totalItems_eq_zero_iff (outcomes : List MethodResult) :
    totalItems outcomes = 0 ↔ ∀ r ∈ outcomes, (concurrentSubdomainer r).items = [] := by
  induction outcomes with
  | nil => simp [totalItems]
  | cons r rest ih =>
    have hcons : totalItems (r :: rest) = (concurrentSubdomainer r).len + totalItems rest := by
      simp [totalItems]
    rw [hcons, Nat.add_eq_zero_iff, ih]
    simp [Slice.len, List.length_eq_zero]

/-- C3: a value sent on the output channel is nil exactly when the workers put
no item at all on the completion channel; this is the case when every method
fails and when every method succeeds with an empty list; a non-nil value sent
has at least one element. -/
theorem Subdomains_nil_iff (outcomes : List MethodResult) (acts : List Action)
    (s : State) (hs : exec (init outcomes) acts = some s) (v : Slice) (hv : v ∈ outputs s) :
    (v = Slice.nil ↔ totalItems outcomes = 0)
      ∧ (v ≠ Slice.nil → v.items ≠ [])
      ∧ ((∀ r ∈ outcomes, r.err ≠ none) → v = Slice.nil)
      ∧ ((∀ r ∈ outcomes, r.err = none ∧ r.result.items = []) → v = Slice.nil) := by
  obtain ⟨arrivals, hp, rfl⟩ := output_spec (inv_of_exec hs) hv
  have hiff : deliver (collect arrivals) = Slice.nil ↔ totalItems outcomes = 0 := by
    rw [deliver_eq_nil_iff, len_collect hp]
  refine ⟨hiff, deliver_items_ne_nil _, ?_, ?_⟩
  · intro hall
    rw [hiff, totalItems_eq_zero_iff]
    intro r hr
    cases he : r.err with
    | none => exact absurd he (hall r hr)
    | some e => simp [concurrentSubdomainer, he]
  · intro hall
    rw [hiff, totalItems_eq_zero_iff]
    intro r hr
    simp [concurrentSubdomainer, (hall r hr).1, (hall r hr).2]

/-- C3 at one failing adapter and one that succeeds with no item: nil is sent. -/
theorem Subdomains_nil_iff_witness :
    exec (init [demoFailure, demoEmpty]) [Action.worker 1, Action.main, Action.worker 0,
        Action.main, Action.main]
      = some (finalOf [demoFailure, demoEmpty] [Action.worker 1, Action.main, Action.worker 0,
        Action.main, Action.main])
    ∧ outputs (finalOf [demoFailure, demoEmpty] [Action.worker 1, Action.main, Action.worker 0,
        Action.main, Action.main]) = [Slice.nil]
    ∧ totalItems [demoFailure, demoEmpty] = 0
    ∧ ((Slice.nil = Slice.nil ↔ totalItems [demoFailure, demoEmpty] = 0)
      ∧ (Slice.nil ≠ Slice.nil → Slice.nil.items ≠ [])
      ∧ ((∀ r ∈ [demoFailure, demoEmpty], r.err ≠ none) → Slice.nil = Slice.nil)
      ∧ ((∀ r ∈ [demoFailure, demoEmpty], r.err = none ∧ r.result.items = []) →
          Slice.nil = Slice.nil)) :=
  ⟨by decide, by decide, by decide,
    Subdomains_nil_iff [demoFailure, demoEmpty]
      [Action.worker 1, Action.main, Action.worker 0, Action.main, Action.main]
      (finalOf [demoFailure, demoEmpty] [Action.worker 1, Action.main, Action.worker 0,
        Action.main, Action.main]) (by decide) Slice.nil (by decide)⟩

/-- C4: for two lists of method results that are permutations of each other
(another launch order) and any two interleavings (another arrival order), the
values sent on the output channel agree in content: both are nil or both are
non-nil, they have the same elements and the same length. -/
theorem Subdomains_order_independent (outcomes₁ outcomes₂ : List MethodResult)
    (hperm : outcomes₁.Perm outcomes₂) (acts₁ acts₂ : List Action) (s₁ s₂ : State)
    (hs₁ : exec (init outcomes₁) acts₁ = some s₁) (hs₂ : exec (init outcomes₂) acts₂ = some s₂)
    (v₁ v₂ : Slice) (hv₁ : v₁ ∈ outputs s₁) (hv₂ : v₂ ∈ outputs s₂) :
    (v₁ = Slice.nil ↔ v₂ = Slice.nil) ∧ (∀ x, x ∈ v₁.items ↔ x ∈ v₂.items)
      ∧ v₁.len = v₂.len := by
  obtain ⟨a₁, hp₁, rfl⟩ := output_spec (inv_of_exec hs₁) hv₁
  obtain ⟨a₂, hp₂, rfl⟩ := output_spec (inv_of_exec hs₂) hv₂
  have htot : totalItems outcomes₁ = totalItems outcomes₂ := by
    unfold totalItems
    exact (hperm.map _).sum_eq
  have hmem : ∀ x, x ∈ (deliver (collect a₁)).items ↔ x ∈ (deliver (collect a₂)).items := by
    intro x
    rw [mem_output_iff hp₁, mem_output_iff hp₂]
    constructor
    · rintro ⟨r, hr, h⟩
      exact ⟨r, hperm.mem_iff.mp hr, h⟩
    · rintro ⟨r, hr, h⟩
      exact ⟨r, hperm.mem_iff.mpr hr, h⟩
  refine ⟨?_, hmem, ?_⟩
  · rw [deliver_eq_nil_iff, deliver_eq_nil_iff, len_collect hp₁, len_collect hp₂, htot]
  · exact ((List.perm_ext_iff_of_nodup (nodup_deliver _) (nodup_deliver _)).mpr hmem).length_eq

/-- C4 at B, C launched in either order: the outputs differ in order only. -/
theorem Subdomains_order_independent_witness :
    [demoB, demoC].Perm [demoC, demoB]
    ∧ outputs (finalOf [demoB, demoC] (launchOrder 2))
        = [Slice.mk [str "x.example.com", str "z.example.com"]]
    ∧ outputs (finalOf [demoC, demoB] (launchOrder 2))
        = [Slice.mk [str "z.example.com", str "x.example.com"]]
    ∧ ((Slice.mk [str "x.example.com", str "z.example.com"] = Slice.nil
          ↔ Slice.mk [str "z.example.com", str "x.example.com"] = Slice.nil)
      ∧ (∀ x, x ∈ (Slice.mk [str "x.example.com", str "z.example.com"]).items
          ↔ x ∈ (Slice.mk [str "z.example.com", str "x.example.com"]).items)
      ∧ (Slice.mk [str "x.example.com", str "z.example.com"]).len
          = (Slice.mk [str "z.example.com", str "x.example.com"]).len) :=
  ⟨List.Perm.swap _ _ _, by decide, by decide,
    Subdomains_order_independent [demoB, demoC] [demoC, demoB] (List.Perm.swap _ _ _)
      (launchOrder 2) (launchOrder 2)
      (finalOf [demoB, demoC] (launchOrder 2)) (finalOf [demoC, demoB] (launchOrder 2))
      (by decide) (by decide)
      (Slice.mk [str "x.example.com", str "z.example.com"])
      (Slice.mk [str "z.example.com", str "x.example.com"]) (by decide) (by decide)⟩

theorem no_step_of_returned {msgs : List Slice} {s : State} (h : Inv msgs s)
    (hm : s.main = Main.returned) (a : Action) : step s a = none := by
  cases a with
  | main => simp only [step, hm]
  | worker k =>
    cases hk : s.workers[k]? with
    | none => simp only [step, hk]
    | some w =>
      cases w with
      | done => simp only [step, hk]
      | running r =>
        exact absurd (h.returned_pending hm).1 (pending_ne_nil_of_running _ k r hk)

theorem can_return {msgs : List Slice} (m : Nat) :
    ∀ (s : State), Inv msgs s → stepsLeft s = m →
      ∃ acts s', exec s acts = some s' ∧ s'.main = Main.returned := by
  induction m with
  | zero =>
    intro s _ hm
    cases hmain : s.main with
    | returned => exact ⟨[], s, rfl, hmain⟩
    | gather i subdomains =>
      simp only [stepsLeft, hmain] at hm
      omega
  | succ m ih =>
    intro s h hm
    by_cases hmain : s.main = Main.returned
    · exact ⟨[], s, rfl, hmain⟩
    · obtain ⟨a, s1, h1⟩ := progress h hmain
      have hl := stepsLeft_step h1
      obtain ⟨acts, s', he, hr⟩ := ih s1 (h.after_step h1) (by omega)
      exact ⟨a :: acts, s', by simp only [exec, h1, he], hr⟩

/-- C5: in every interleaving of a call, at most one value has been sent on the
output channel; before the caller returns none has been sent and some goroutine
can still move; once the caller has returned exactly one has been sent and
nothing moves any more.  Every interleaving has at most `2 * N + 1` steps and
can be continued to the return, so each complete run sends exactly once. -/
theorem Subdomains_sends_once (outcomes : List MethodResult) (acts : List Action)
    (s : State) (hs : exec (init outcomes) acts = some s) :
    (outputs s).length ≤ 1
      ∧ (s.main = Main.returned → (outputs s).length = 1 ∧ ∀ a, step s a = none)
      ∧ (s.main ≠ Main.returned → outputs s = [] ∧ ∃ a s', step s a = some s')
      ∧ acts.length + stepsLeft s = 2 * outcomes.length + 1
      ∧ ∃ acts' s', exec s acts' = some s' ∧ s'.main = Main.returned := by
  have hinv := inv_of_exec hs
  have hret : s.main = Main.returned → (outputs s).length = 1 ∧ ∀ a, step s a = none := by
    intro hm
    obtain ⟨arrivals, _, ho⟩ := outputs_of_returned hinv hm
    exact ⟨by simp [ho], no_step_of_returned hinv hm⟩
  have hrun : s.main ≠ Main.returned → outputs s = [] ∧ ∃ a s', step s a = some s' := by
    intro hm
    refine ⟨?_, progress hinv hm⟩
    cases hmain : s.main with
    | returned => exact absurd hmain hm
    | gather i subdomains => exact outputs_of_gather hinv i subdomains hmain
  refine ⟨?_, hret, hrun, ?_, can_return (stepsLeft s) s hinv rfl⟩
  · by_cases hm : s.main = Main.returned
    · exact le_of_eq (hret hm).1
    · simp [(hrun hm).1]
  · have := stepsLeft_exec acts hs
    rw [stepsLeft_init] at this
    omega

/-- C5 at the scenario A with a failing adapter, in launch order. -/
theorem Subdomains_sends_once_witness :
    exec (init [demoA, demoFailure]) (launchOrder 2)
        = some (finalOf [demoA, demoFailure] (launchOrder 2))
      ∧ (finalOf [demoA, demoFailure] (launchOrder 2)).main = Main.returned
      ∧ outputs (finalOf [demoA, demoFailure] (launchOrder 2))
          = [Slice.mk [str "x.example.com"]]
      ∧ (outputs (finalOf [demoA, demoFailure] (launchOrder 2))).length ≤ 1 :=
  ⟨by decide, by decide, by decide,
    (Subdomains_sends_once [demoA, demoFailure] (launchOrder 2)
      (finalOf [demoA, demoFailure] (launchOrder 2)) (by decide)).1⟩

/-- C6: in every interleaving of a call with N methods, at most N values have
been received from the completion channel; a send on the output channel is
preceded by exactly N receives, whose values are the values of the N workers
(failures included), and followed by nothing; a caller that has returned has
made that send. -/
theorem Subdomains_waits_for_all (outcomes : List MethodResult) (acts : List Action)
    (s : State) (hs : exec (init outcomes) acts = some s) :
    recvCount s.trace ≤ outcomes.length
      ∧ (∀ pre v post, s.trace = pre ++ Event.outSend v :: post →
          recvCount pre = outcomes.length
            ∧ (recvd pre).Perm (outcomes.map concurrentSubdomainer) ∧ post = [])
      ∧ (s.main = Main.returned → ∃ pre v, s.trace = pre ++ [Event.outSend v]) := by
  have hinv := inv_of_exec hs
  have hn : s.n = outcomes.length := by simpa using hinv.n_eq
  refine ⟨?_, ?_, ?_⟩
  · have := hinv.length_eq
    unfold recvCount
    omega
  · intro pre v post ht
    cases hm : s.main with
    | gather i subdomains =>
      have ho : outs s.trace = [] := outputs_of_gather hinv i subdomains hm
      rw [ht, outs_append] at ho
      have := (List.append_eq_nil.mp ho).2
      simp [outs, List.filterMap_cons] at this
    | returned =>
      have hmain := hinv.main_ok
      rw [hm] at hmain
      obtain ⟨pre0, ht0, hlen, hout⟩ := hmain
      rw [ht0] at ht
      obtain ⟨h1, _, h3⟩ := split_outSend_unique pre0 pre post _ v hout ht
      subst h1
      obtain ⟨hp, hc⟩ := hinv.returned_pending hm
      have hperm := hinv.perm
      rw [hp, hc, ht0] at hperm
      refine ⟨by unfold recvCount; omega, ?_, h3⟩
      simpa [recvd_append] using hperm
  · intro hm
    have hmain := hinv.main_ok
    rw [hm] at hmain
    obtain ⟨pre0, ht0, _, _⟩ := hmain
    exact ⟨pre0, _, ht0⟩

/-- C6 at B with a failing adapter, the failure arriving first. -/
theorem Subdomains_waits_for_all_witness :
    exec (init [demoB, demoFailure]) [Action.worker 1, Action.main, Action.worker 0,
        Action.main, Action.main]
      = some (finalOf [demoB, demoFailure] [Action.worker 1, Action.main, Action.worker 0,
        Action.main, Action.main])
    ∧ (finalOf [demoB, demoFailure] [Action.worker 1, Action.main, Action.worker 0,
        Action.main, Action.main]).trace
      = [Event.chanSend 1 Slice.nil, Event.chanRecv Slice.nil,
          Event.chanSend 0 (Slice.mk [str "x.example.com", str "z.example.com"]),
          Event.chanRecv (Slice.mk [str "x.example.com", str "z.example.com"]),
          Event.outSend (Slice.mk [str "x.example.com", str "z.example.com"])]
    ∧ recvCount (finalOf [demoB, demoFailure] [Action.worker 1, Action.main, Action.worker 0,
        Action.main, Action.main]).trace ≤ [demoB, demoFailure].length :=
  ⟨by decide, by decide,
    (Subdomains_waits_for_all [demoB, demoFailure]
      [Action.worker 1, Action.main, Action.worker 0, Action.main, Action.main]
      (finalOf [demoB, demoFailure] [Action.worker 1, Action.main, Action.worker 0,
        Action.main, Action.main]) (by decide)).1⟩

/-! ## Failing adapters -/

theorem Slice.append_congr (s v w : Slice) (h : v.items = w.items) :
    s.append v = s.append w := by
  unfold Slice.append
  rw [h]

theorem Slice.append_of_items_nil (s v : Slice) (h : v.items = []) : s.append v = s := by
  unfold Slice.append
  rw [h]

theorem view_step {s₁ s₂ : State} (h : s₁.view = s₂.view) (a : Action) :
    (step s₁ a).map State.view = (step s₂ a).map State.view := by
  simp only [State.view, Prod.mk.injEq] at h
  obtain ⟨hn, hw, hc, hm, ho⟩ := h
  have hclen : s₁.channel.length = s₂.channel.length := by
    simpa using congrArg List.length hc
  cases a with
  | worker k =>
    have hk : (s₁.workers[k]?).map Worker.view = (s₂.workers[k]?).map Worker.view := by
      rw [← List.getElem?_map, ← List.getElem?_map, hw]
    cases h1 : s₁.workers[k]? with
    | none =>
      cases h2 : s₂.workers[k]? with
      | none => simp only [step, h1, h2]
      | some w2 => rw [h1, h2] at hk; simp at hk
    | some w1 =>
      cases h2 : s₂.workers[k]? with
      | none => rw [h1, h2] at hk; simp at hk
      | some w2 =>
        rw [h1, h2] at hk
        simp only [Option.map_some', Option.some.injEq] at hk
        cases w1 with
        | done =>
          cases w2 with
          | done => simp only [step, h1, h2]
          | running r2 => simp [Worker.view] at hk
        | running r1 =>
          cases w2 with
          | done => simp [Worker.view] at hk
          | running r2 =>
            simp only [Worker.view, Option.some.injEq] at hk
            simp only [step, h1, h2, hn, hclen]
            split
            · simp only [Option.map_some', State.view, Option.some.injEq, Prod.mk.injEq]
              refine ⟨trivial, ?_, ?_, hm, ?_⟩
              · rw [List.map_set, List.map_set, hw]
              · rw [List.map_append, List.map_append, hc]
                simp [hk]
              · simp [outs_append, ho]
            · rfl
  | main =>
    cases h1 : s₁.main with
    | returned =>
      have h2 : s₂.main = Main.returned := by rw [← hm, h1]
      simp only [step, h1, h2]
    | gather i subdomains =>
      have h2 : s₂.main = Main.gather i subdomains := by rw [← hm, h1]
      simp only [step, h1, h2, hn]
      split
      · cases hc1 : s₁.channel with
        | nil =>
          cases hc2 : s₂.channel with
          | nil => rfl
          | cons v2 rest2 => rw [hc1, hc2] at hclen; simp at hclen
        | cons v1 rest1 =>
          cases hc2 : s₂.channel with
          | nil => rw [hc1, hc2] at hclen; simp at hclen
          | cons v2 rest2 =>
            rw [hc1, hc2] at hc
            simp only [List.map_cons, List.cons.injEq] at hc
            simp only [Option.map_some', State.view, Option.some.injEq, Prod.mk.injEq]
            refine ⟨trivial, hw, hc.2, ?_, ?_⟩
            · rw [Slice.append_congr subdomains v1 v2 hc.1]
            · simp [outs_append, ho]
      · simp only [Option.map_some', State.view, Option.some.injEq, Prod.mk.injEq]
        exact ⟨trivial, hw, hc, trivial, by simp [outs_append, ho]⟩

theorem view_exec (acts : List Action) :
    ∀ {s₁ s₂ : State}, s₁.view = s₂.view →
      (exec s₁ acts).map State.view = (exec s₂ acts).map State.view := by
  induction acts with
  | nil => intro s₁ s₂ h; simp only [exec, Option.map_some', h]
  | cons a rest ih =>
    intro s₁ s₂ h
    have hstep := view_step h a
    cases h1 : step s₁ a with
    | none =>
      cases h2 : step s₂ a with
      | none => simp only [exec, h1, h2]
      | some t2 => rw [h1, h2] at hstep; simp at hstep
    | some t1 =>
      cases h2 : step s₂ a with
      | none => rw [h1, h2] at hstep; simp at hstep
      | some t2 =>
        rw [h1, h2] at hstep
        simp only [Option.map_some', Option.some.injEq] at hstep
        simp only [exec, h1, h2]
        exact ih hstep

theorem outputs_eq_of_view {s₁ s₂ : State} (h : s₁.view = s₂.view) :
    outputs s₁ = outputs s₂ := by
  simp only [State.view, Prod.mk.injEq] at h
  exact h.2.2.2.2

theorem map_set_of_eq {α β : Type} (f : α → β) (l : List α) :
    ∀ (k : Nat) (x y : α), l[k]? = some x → f x = f y → (l.set k y).map f = l.map f := by
  induction l with
  | nil => intro k x y h; simp at h
  | cons a rest ih =>
    intro k x y h hf
    cases k with
    | zero =>
      simp only [List.getElem?_cons_zero, Option.some.injEq] at h
      subst h
      simp [hf]
    | succ k =>
      simp only [List.getElem?_cons_succ] at h
      simp [ih k x y h hf]

theorem view_init_set (outcomes : List MethodResult) (k : Nat) (r r' : MethodResult)
    (hk : outcomes[k]? = some r)
    (hitems : (concurrentSubdomainer r).items = (concurrentSubdomainer r').items) :
    (init outcomes).view = (init (outcomes.set k r')).view := by
  simp only [State.view, init, List.length_set, List.map_map, Prod.mk.injEq, List.map_nil,
    and_true, true_and]
  exact (map_set_of_eq (Worker.view ∘ Worker.running) outcomes k r r' hk
    (by simp [Worker.view, hitems])).symm

theorem sendsOf_append (k : Nat) (t u : List Event) :
    sendsOf k (t ++ u) = sendsOf k t ++ sendsOf k u := by
  simp [sendsOf, List.filterMap_append]

theorem sendsOf_chanSend_self (k : Nat) (v : Slice) :
    sendsOf k [Event.chanSend k v] = [v] := by
  simp [sendsOf]

theorem sendsOf_chanSend_ne (j k : Nat) (v : Slice) (h : ¬j = k) :
    sendsOf k [Event.chanSend j v] = [] := by
  simp [sendsOf, h]

theorem SendInv.holds_init (outcomes : List MethodResult) : SendInv outcomes (init outcomes) := by
  refine ⟨?_, ?_, ?_⟩
  · intro k r h
    simp only [Subdomainer.init, List.getElem?_map] at h
    cases ho : outcomes[k]? with
    | none => rw [ho] at h; simp at h
    | some r' =>
      rw [ho] at h
      simp only [Option.map_some', Option.some.injEq, Worker.running.injEq] at h
      exact ⟨by rw [h], rfl⟩
  · intro k h
    simp only [Subdomainer.init, List.getElem?_map] at h
    cases ho : outcomes[k]? with
    | none => rw [ho] at h; simp at h
    | some r' => rw [ho] at h; simp at h
  · intro k h
    simp only [Subdomainer.init, List.getElem?_map] at h
    cases ho : outcomes[k]? with
    | none => rfl
    | some r' => rw [ho] at h; simp at h

theorem SendInv.keep_step {outcomes : List MethodResult} {s s' : State} {a : Action}
    (h : SendInv outcomes s) (hs : step s a = some s') : SendInv outcomes s' := by
  cases a with
  | worker j =>
    simp only [Subdomainer.step] at hs
    split at hs
    · rename_i r hj
      split at hs
      · simp only [Option.some.injEq] at hs
        subst hs
        have hjlt : j < s.workers.length := by
          by_contra hge
          rw [List.getElem?_eq_none (by omega)] at hj
          simp at hj
        refine ⟨?_, ?_, ?_⟩
        · intro k r' hk
          simp only [List.getElem?_set] at hk
          by_cases hjk : j = k
          · simp [hjk ▸ hjlt, hjk] at hk
          · simp only [hjk, if_false] at hk
            obtain ⟨h1, h2⟩ := h.running k r' hk
            exact ⟨h1, by rw [sendsOf_append, h2, sendsOf_chanSend_ne j k _ hjk, List.append_nil]⟩
        · intro k hk
          simp only [List.getElem?_set] at hk
          by_cases hjk : j = k
          · subst hjk
            obtain ⟨h1, h2⟩ := h.running j r hj
            exact ⟨r, h1, by rw [sendsOf_append, h2, sendsOf_chanSend_self, List.nil_append]⟩
          · simp only [hjk, if_false] at hk
            obtain ⟨r', h1, h2⟩ := h.done k hk
            exact ⟨r', h1, by rw [sendsOf_append, h2, sendsOf_chanSend_ne j k _ hjk, List.append_nil]⟩
        · intro k hk
          simp only [List.getElem?_set] at hk
          by_cases hjk : j = k
          · simp [hjk ▸ hjlt, hjk] at hk
          · simp only [hjk, if_false] at hk
            exact h.absent k hk
      · exact absurd hs (by simp)
    · exact absurd hs (by simp)
  | main =>
    simp only [Subdomainer.step] at hs
    split at hs
    · split at hs
      · split at hs
        · exact absurd hs (by simp)
        · simp only [Option.some.injEq] at hs
          subst hs
          refine ⟨?_, ?_, h.absent⟩
          · intro k r hk
            obtain ⟨h1, h2⟩ := h.running k r hk
            exact ⟨h1, by rw [sendsOf_append, h2]; rfl⟩
          · intro k hk
            obtain ⟨r, h1, h2⟩ := h.done k hk
            exact ⟨r, h1, by rw [sendsOf_append, h2]; rfl⟩
      · simp only [Option.some.injEq] at hs
        subst hs
        refine ⟨?_, ?_, h.absent⟩
        · intro k r hk
          obtain ⟨h1, h2⟩ := h.running k r hk
          exact ⟨h1, by rw [sendsOf_append, h2]; rfl⟩
        · intro k hk
          obtain ⟨r, h1, h2⟩ := h.done k hk
          exact ⟨r, h1, by rw [sendsOf_append, h2]; rfl⟩
    · exact absurd hs (by simp)

theorem SendInv.keep_exec {outcomes : List MethodResult} (acts : List Action) :
    ∀ {s s' : State}, SendInv outcomes s → exec s acts = some s' → SendInv outcomes s' := by
  induction acts with
  | nil =>
    intro s s' h hs
    simp only [Subdomainer.exec, Option.some.injEq] at hs
    exact hs ▸ h
  | cons a rest ih =>
    intro s s' h hs
    simp only [Subdomainer.exec] at hs
    split at hs
    · rename_i s1 h1
      exact ih (h.keep_step h1) hs
    · exact absurd hs (by simp)

theorem sendsOf_cases {outcomes : List MethodResult} {s : State} (h : SendInv outcomes s)
    (k : Nat) (r : MethodResult) (hk : outcomes[k]? = some r) :
    (sendsOf k s.trace = [] ∧ s.workers[k]? = some (Worker.running r))
      ∨ sendsOf k s.trace = [concurrentSubdomainer r] := by
  cases hw : s.workers[k]? with
  | none =>
    have := h.absent k hw
    rw [hk] at this
    simp at this
  | some w =>
    cases w with
    | running r' =>
      obtain ⟨h1, h2⟩ := h.running k r' hw
      rw [hk, Option.some.injEq] at h1
      exact Or.inl ⟨h2, by rw [h1]⟩
    | done =>
      obtain ⟨r', h1, h2⟩ := h.done k hw
      rw [hk, Option.some.injEq] at h1
      exact Or.inr (by rw [h2, h1])

theorem exists_perm_map {α β : Type} [DecidableEq α] (f : α → β) (ys : List β) :
    ∀ (l : List α), ys.Perm (l.map f) → ∃ l' : List α, l'.Perm l ∧ l'.map f = ys := by
  induction ys with
  | nil =>
    intro l h
    have : l.map f = [] := List.Perm.eq_nil h.symm
    exact ⟨[], by simp [List.map_eq_nil_iff.mp this], rfl⟩
  | cons y rest ih =>
    intro l h
    have hy : y ∈ l.map f := h.subset (List.mem_cons_self y rest)
    obtain ⟨x, hx, rfl⟩ := List.mem_map.mp hy
    have hl : l.Perm (x :: l.erase x) := List.perm_cons_erase hx
    have h2 : (f x :: rest).Perm (f x :: (l.erase x).map f) := h.trans (hl.map f)
    obtain ⟨l', hp, hm⟩ := ih (l.erase x) (List.Perm.cons_inv h2)
    exact ⟨x :: l', (List.Perm.cons x hp).trans hl.symm, by simp [hm]⟩

theorem foldl_append_succeeded (arrivals : List MethodResult) :
    ∀ acc : Slice, (arrivals.map concurrentSubdomainer).foldl Slice.append acc
      = ((arrivals.filter fun r => r.err.isNone).map fun r => r.result).foldl
          Slice.append acc := by
  induction arrivals with
  | nil => intro acc; rfl
  | cons r rest ih =>
    intro acc
    cases he : r.err with
    | none =>
      simp only [List.map_cons, List.foldl_cons, List.filter_cons, he, Option.isNone_none,
        if_true]
      rw [ih]
      simp [concurrentSubdomainer, he]
    | some e =>
      simp only [List.map_cons, List.foldl_cons, List.filter_cons, he, Option.isNone_some]
      rw [ih]
      simp [concurrentSubdomainer, he, Slice.append_of_items_nil]

/-- C9: a failing adapter contributes nothing.  `concurrentSubdomainer` sends
nil when its method returns an error (whatever slice came with it) and the
method's result otherwise; in every interleaving each worker has sent at most
once, and exactly once when the caller has returned.  Replacing a failing
method by one that succeeds with an empty list leaves what is sent on the
output channel unchanged under the same schedule, and the value delivered is
the one computed from the results of the successful methods alone, in arrival
order. -/
theorem failing_adapter_contributes_nothing (outcomes : List MethodResult)
    (acts : List Action) (s : State) (hs : exec (init outcomes) acts = some s) :
    (∀ r : MethodResult, (r.err ≠ none → concurrentSubdomainer r = Slice.nil)
        ∧ (r.err = none → concurrentSubdomainer r = r.result))
      ∧ (∀ (k : Nat) (r : MethodResult), outcomes[k]? = some r →
          (sendsOf k s.trace = [] ∨ sendsOf k s.trace = [concurrentSubdomainer r])
            ∧ (s.main = Main.returned → sendsOf k s.trace = [concurrentSubdomainer r]))
      ∧ (∀ (k : Nat) (r : MethodResult), outcomes[k]? = some r → r.err ≠ none →
          (exec (init (outcomes.set k ⟨Slice.mk [], none⟩)) acts).map outputs
            = some (outputs s))
      ∧ (s.main = Main.returned → ∃ arrivals : List MethodResult,
          arrivals.Perm outcomes
            ∧ outputs s = [deliver (collect (arrivals.map concurrentSubdomainer))]
            ∧ outputs s = [deliver (collect
                ((arrivals.filter fun r => r.err.isNone).map fun r => r.result))]) := by
  have hinv := inv_of_exec hs
  have hsend : SendInv outcomes s := SendInv.keep_exec acts (SendInv.holds_init outcomes) hs
  refine ⟨?_, ?_, ?_, ?_⟩
  · intro r
    constructor
    · intro he
      cases h : r.err with
      | none => exact absurd h he
      | some e => simp [concurrentSubdomainer, h]
    · intro he
      simp [concurrentSubdomainer, he]
  · intro k r hk
    rcases sendsOf_cases hsend k r hk with ⟨h0, hrun⟩ | h1
    · refine ⟨Or.inl h0, ?_⟩
      intro hm
      exact absurd (hinv.returned_pending hm).1 (pending_ne_nil_of_running _ k r hrun)
    · exact ⟨Or.inr h1, fun _ => h1⟩
  · intro k r hk he
    have hitems : (concurrentSubdomainer r).items
        = (concurrentSubdomainer ⟨Slice.mk [], none⟩).items := by
      cases h : r.err with
      | none => exact absurd h he
      | some e => simp [concurrentSubdomainer, h]
    have hv := view_exec acts (view_init_set outcomes k r ⟨Slice.mk [], none⟩ hk hitems)
    rw [hs] at hv
    cases h2 : exec (init (outcomes.set k ⟨Slice.mk [], none⟩)) acts with
    | none => rw [h2] at hv; simp at hv
    | some s2 =>
      rw [h2] at hv
      simp only [Option.map_some', Option.some.injEq] at hv
      simp only [Option.map_some', Option.some.injEq]
      exact (outputs_eq_of_view hv).symm
  · intro hm
    obtain ⟨msgs, hp, ho⟩ := outputs_of_returned hinv hm
    obtain ⟨arrivals, hperm, hmap⟩ := exists_perm_map concurrentSubdomainer msgs outcomes hp
    subst hmap
    refine ⟨arrivals, hperm, ho, ?_⟩
    rw [ho]
    simp only [collect, foldl_append_succeeded]

/-- C9 at the scenario of an adapter with two hosts and a failing one. -/
theorem failing_adapter_contributes_nothing_witness :
    exec (init [demoXY, demoFailure]) (launchOrder 2)
        = some (finalOf [demoXY, demoFailure] (launchOrder 2))
      ∧ outputs (finalOf [demoXY, demoFailure] (launchOrder 2))
          = [Slice.mk [str "x.example.com", str "y.example.com"]]
      ∧ [demoXY, demoFailure][1]? = some demoFailure
      ∧ demoFailure.err ≠ none
      ∧ (exec (init ([demoXY, demoFailure].set 1 ⟨Slice.mk [], none⟩)) (launchOrder 2)).map
            outputs
          = some (outputs (finalOf [demoXY, demoFailure] (launchOrder 2))) :=
  ⟨by decide, by decide, by decide, by decide,
    (failing_adapter_contributes_nothing [demoXY, demoFailure] (launchOrder 2)
      (finalOf [demoXY, demoFailure] (launchOrder 2)) (by decide)).2.2.1 1 demoFailure
      (by decide) (by decide)⟩


/-! ## The adapters: failure paths -/

theorem decodeArray_typeErr (elems : List JSON) :
    ∀ old : List GoString, (decodeArray old elems).2 = !elems.all JSON.isStringOrNull := by
  induction elems with
  | nil => intro old; rfl
  | cons e rest ih =>
    intro old
    simp only [decodeArray, ih, List.all_cons]
    cases e <;> simp [decodeElem, JSON.isStringOrNull]

theorem decodeField_typeErr (d : Decoded) (v : JSON) :
    (decodeField d v).typeErr = (d.typeErr || !v.fitsResults) := by
  cases v <;> simp [decodeField, JSON.fitsResults, decodeArray_typeErr]

theorem decodeObject_typeErr (members : List (GoString × JSON)) :
    ∀ d : Decoded, (decodeObject members d).typeErr
      = (d.typeErr || !(fieldValues members).all JSON.fitsResults) := by
  induction members with
  | nil => intro d; simp [decodeObject, fieldValues]
  | cons m rest ih =>
    intro d
    have hcons : decodeObject (m :: rest) d
        = decodeObject rest (if isSubdomainsKey m.1 then decodeField d m.2 else d) := rfl
    rw [hcons, ih]
    by_cases hk : isSubdomainsKey m.1 = true
    · simp [hk, fieldValues, decodeField_typeErr, Bool.or_assoc]
    · simp [hk, fieldValues]

theorem jsonUnmarshal_typeErr (body : JsonBody) :
    (jsonUnmarshal body).typeErr = !fitsShape body := by
  cases body with
  | none => rfl
  | some doc =>
    cases doc with
    | object members => simp [jsonUnmarshal, fitsShape, decodeObject_typeErr]
    | _ => rfl

/-- C8: each adapter returns an error exactly when the request fails, the
status is not 200, the body cannot be read or, for ThreatCrowd, the body is not
valid JSON of the expected shape; with an error the result is nil and the
message contains the name of the backend. -/
theorem adapters_fail_exactly :
    (∀ get : HttpGet (List UInt8),
      ((subdomainsInHackerTarget get).err ≠ none
          ↔ get.getErr = true ∨ get.statusCode ≠ 200 ∨ get.readErr = true)
        ∧ ((subdomainsInHackerTarget get).err ≠ none →
            (subdomainsInHackerTarget get).result = Slice.nil
              ∧ ∃ pre post : String,
                  (subdomainsInHackerTarget get).err = some (pre ++ "HackerTarget" ++ post)))
      ∧ (∀ get : HttpGet JsonBody,
        ((subdomainsInThreatCrowd get).err ≠ none
            ↔ get.getErr = true ∨ get.statusCode ≠ 200 ∨ get.readErr = true
                ∨ fitsShape get.body = false)
          ∧ ((subdomainsInThreatCrowd get).err ≠ none →
              (subdomainsInThreatCrowd get).result = Slice.nil
                ∧ ∃ pre post : String,
                    (subdomainsInThreatCrowd get).err
                      = some (pre ++ "ThreatCrowd" ++ post))) := by
  constructor
  · intro get
    unfold subdomainsInHackerTarget
    by_cases h1 : get.getErr = true ∨ get.statusCode ≠ 200
    · rw [if_pos h1]
      refine ⟨⟨fun _ => ?_, fun _ => by simp⟩, fun _ => ⟨rfl, "", " is not available", rfl⟩⟩
      rcases h1 with h | h
      · exact Or.inl h
      · exact Or.inr (Or.inl h)
    · rw [if_neg h1]
      by_cases h2 : get.readErr = true
      · rw [if_pos h2]
        exact ⟨⟨fun _ => Or.inr (Or.inr h2), fun _ => by simp⟩,
          fun _ => ⟨rfl, "", " does not respond correctly", rfl⟩⟩
      · rw [if_neg h2]
        refine ⟨⟨fun h => absurd rfl h, ?_⟩, fun h => absurd rfl h⟩
        rintro (h | h | h)
        · exact absurd (Or.inl h) h1
        · exact absurd (Or.inr h) h1
        · exact absurd h h2
  · intro get
    unfold subdomainsInThreatCrowd
    by_cases h1 : get.getErr = true ∨ get.statusCode ≠ 200
    · rw [if_pos h1]
      refine ⟨⟨fun _ => ?_, fun _ => by simp⟩, fun _ => ⟨rfl, "", " is not available", rfl⟩⟩
      rcases h1 with h | h
      · exact Or.inl h
      · exact Or.inr (Or.inl h)
    · rw [if_neg h1]
      by_cases h2 : get.readErr = true
      · rw [if_pos h2]
        exact ⟨⟨fun _ => Or.inr (Or.inr (Or.inl h2)), fun _ => by simp⟩,
          fun _ => ⟨rfl, "", " does not respond correctly", rfl⟩⟩
      · rw [if_neg h2]
        by_cases h3 : (jsonUnmarshal get.body).typeErr = true
        · rw [if_pos h3]
          have hfit : fitsShape get.body = false := by
            rw [jsonUnmarshal_typeErr] at h3
            simpa using h3
          exact ⟨⟨fun _ => Or.inr (Or.inr (Or.inr hfit)), fun _ => by simp⟩,
            fun _ => ⟨rfl, "Bad JSON format using ", "", rfl⟩⟩
        · rw [if_neg h3]
          refine ⟨⟨fun h => absurd rfl h, ?_⟩, fun h => absurd rfl h⟩
          rintro (h | h | h | h)
          · exact absurd (Or.inl h) h1
          · exact absurd (Or.inr h) h1
          · exact absurd h h2
          · rw [jsonUnmarshal_typeErr, h] at h3
            exact absurd rfl h3

/-- C8 at a ThreatCrowd body of the wrong shape and a HackerTarget status 503. -/
theorem adapters_fail_exactly_witness :
    subdomainsInThreatCrowd ⟨false, 200, false,
        some (JSON.object [(str "subdomains", JSON.string (str "a.example.com"))])⟩
      = ⟨Slice.nil, some "Bad JSON format using ThreatCrowd"⟩
    ∧ subdomainsInHackerTarget ⟨false, 503, false, []⟩
      = ⟨Slice.nil, some "HackerTarget is not available"⟩
    ∧ ((subdomainsInHackerTarget ⟨false, 503, false, []⟩).err ≠ none
        ↔ false = true ∨ (503 : Int) ≠ 200 ∨ false = true) :=
  ⟨by decide, by decide, (adapters_fail_exactly.1 ⟨false, 503, false, []⟩).1⟩

/-! ## The adapters: the result on success -/

theorem getLast?_cons_eq {α : Type} (a : α) (l : List α) :
    (a :: l).getLast? = some (l.getLast?.getD a) := by
  cases l with
  | nil => rfl
  | cons b t =>
    rw [List.getLast?_cons_cons]
    cases h : (b :: t).getLast? with
    | none => simp at h
    | some v => rfl

theorem decodeObject_isNil (members : List (GoString × JSON)) :
    ∀ d : Decoded, (decodeObject members d).typeErr = false →
      ((decodeObject members d).Results.isNil = false
        ↔ match (fieldValues members).getLast? with
          | some v => v.isArray = true
          | none => d.Results.isNil = false) := by
  induction members with
  | nil => intro d _; simp [decodeObject, fieldValues]
  | cons m rest ih =>
    intro d herr
    have hcons : decodeObject (m :: rest) d
        = decodeObject rest (if isSubdomainsKey m.1 then decodeField d m.2 else d) := rfl
    rw [hcons] at herr ⊢
    have ih' := ih _ herr
    rw [decodeObject_typeErr, Bool.or_eq_false_iff] at herr
    by_cases hk : isSubdomainsKey m.1 = true
    · simp only [hk, if_true] at ih' herr
      have hfv : fieldValues (m :: rest) = m.2 :: fieldValues rest := by
        simp [fieldValues, hk]
      rw [hfv, getLast?_cons_eq, if_pos hk, ih']
      cases hl : (fieldValues rest).getLast? with
      | some v => simp
      | none =>
        simp only [Option.getD_none]
        have hfield := herr.1
        rw [decodeField_typeErr, Bool.or_eq_false_iff] at hfield
        cases hv : m.2 with
        | null => simp [decodeField, JSON.isArray, Slice.isNil]
        | array elems => simp [decodeField, JSON.isArray, Slice.isNil]
        | bool b => rw [hv] at hfield; simp [JSON.fitsResults] at hfield
        | number n => rw [hv] at hfield; simp [JSON.fitsResults] at hfield
        | string x => rw [hv] at hfield; simp [JSON.fitsResults] at hfield
        | object ms => rw [hv] at hfield; simp [JSON.fitsResults] at hfield
    · have hfv : fieldValues (m :: rest) = fieldValues rest := by
        simp [fieldValues, hk]
      rw [hfv, if_neg hk]
      simpa only [hk] using ih'

theorem jsonUnmarshal_isNil (body : JsonBody) (herr : (jsonUnmarshal body).typeErr = false) :
    (jsonUnmarshal body).Results.isNil = false ↔ endsWithArray body = true := by
  cases body with
  | none => simp [jsonUnmarshal] at herr
  | some doc =>
    cases doc with
    | object members =>
      have := decodeObject_isNil members ⟨Slice.nil, false⟩ herr
      simp only [jsonUnmarshal, endsWithArray]
      rw [this]
      cases (fieldValues members).getLast? with
      | some v => simp
      | none => simp [Slice.isNil]
    | null => simp [jsonUnmarshal, endsWithArray, Slice.isNil]
    | bool b => simp [jsonUnmarshal] at herr
    | number n => simp [jsonUnmarshal] at herr
    | string x => simp [jsonUnmarshal] at herr
    | array elems => simp [jsonUnmarshal] at herr

/-- C7 as stated fails: on the bodies `{}` and `{"subdomains": null}`, both
well-formed JSON, `subdomainsInThreatCrowd` succeeds and returns a nil slice. -/
theorem threatCrowd_nil_on_success :
    (subdomainsInThreatCrowd ⟨false, 200, false, some (JSON.object [])⟩).err = none
      ∧ (subdomainsInThreatCrowd ⟨false, 200, false, some (JSON.object [])⟩).result.isNil = true
      ∧ (subdomainsInThreatCrowd
          ⟨false, 200, false, some (JSON.object [(str "subdomains", JSON.null)])⟩).err = none
      ∧ (subdomainsInThreatCrowd
          ⟨false, 200, false, some (JSON.object [(str "subdomains", JSON.null)])⟩).result.isNil
        = true := by
  decide

/-- C7, amended: when `subdomainsInHackerTarget` succeeds its result is a
non-nil slice; when `subdomainsInThreatCrowd` succeeds its result is non-nil
exactly when the body is a JSON object whose last `subdomains` member is an
array (so it is nil for the body `null`, for an object without such a member
and for one whose last such member is `null`). -/
theorem adapter_success_result :
    (∀ get : HttpGet (List UInt8), (subdomainsInHackerTarget get).err = none →
        (subdomainsInHackerTarget get).result.isNil = false)
      ∧ (∀ get : HttpGet JsonBody, (subdomainsInThreatCrowd get).err = none →
          ((subdomainsInThreatCrowd get).result.isNil = false
            ↔ endsWithArray get.body = true)) := by
  constructor
  · intro get
    unfold subdomainsInHackerTarget
    split
    · intro h; simp at h
    · split
      · intro h; simp at h
      · intro _; rfl
  · intro get
    unfold subdomainsInThreatCrowd
    split
    · intro h; simp at h
    · split
      · intro h; simp at h
      · split
        · intro h; simp at h
        · rename_i h3
          intro _
          exact jsonUnmarshal_isNil get.body (by simpa using h3)

/-- C7, amended, at the body with an empty array under the name `Subdomains`. -/
theorem adapter_success_result_witness :
    (subdomainsInThreatCrowd
        ⟨false, 200, false, some (JSON.object [(str "Subdomains", JSON.array [])])⟩)
      = ⟨Slice.mk [], none⟩
    ∧ endsWithArray (some (JSON.object [(str "Subdomains", JSON.array [])])) = true
    ∧ ((subdomainsInThreatCrowd
          ⟨false, 200, false, some (JSON.object [(str "Subdomains", JSON.array [])])⟩).result.isNil
        = false
      ↔ endsWithArray (some (JSON.object [(str "Subdomains", JSON.array [])])) = true) :=
  ⟨by decide, by decide,
    adapter_success_result.2
      ⟨false, 200, false, some (JSON.object [(str "Subdomains", JSON.array [])])⟩ (by decide)⟩

/-! ## `subdomainsInHackerTarget`: lines and items -/

theorem scanLoop_seg (limit : Nat) (seg : List UInt8) :
    ∀ (line rest : List UInt8), (∀ b ∈ seg, b ≠ 10) →
      scanLoop limit line (seg ++ rest) = scanLoop limit (line ++ seg) rest := by
  induction seg with
  | nil => intro line rest _; simp
  | cons c tail ih =>
    intro line rest h
    have hc : c ≠ 10 := h c (List.mem_cons_self c tail)
    rw [List.cons_append, scanLoop, if_neg hc,
      ih _ _ (fun b hb => h b (List.mem_cons_of_mem c hb))]
    simp

theorem specLines_seg (seg : List UInt8) :
    ∀ (line rest : List UInt8), (∀ b ∈ seg, b ≠ 10) →
      specLines line (seg ++ rest) = specLines (line ++ seg) rest := by
  induction seg with
  | nil => intro line rest _; simp
  | cons c tail ih =>
    intro line rest h
    have hc : c ≠ 10 := h c (List.mem_cons_self c tail)
    rw [List.cons_append, specLines, if_neg hc,
      ih _ _ (fun b hb => h b (List.mem_cons_of_mem c hb))]
    simp

theorem replicate_no_newline (n : Nat) : ∀ b ∈ List.replicate n (120 : UInt8), b ≠ 10 := by
  intro b hb
  rw [List.eq_of_mem_replicate hb]
  decide

/-- C10 fails on the code: on a body of three lines whose second line has
131072 bytes the adapter succeeds with the item of the first line only, since
the scanner stops at the long line and its error is not looked at; the lines
after it are lost as well. -/
theorem hackerTarget_stops_at_long_line :
    subdomainsInHackerTarget ⟨false, 200, false, longLineBody⟩
        = ⟨Slice.mk [str "a.example.com"], none⟩
      ∧ (specLines [] longLineBody).length = 3 := by
  have h1 : ∀ b ∈ str "a.example.com,1.2.3.4", b ≠ 10 := by decide
  constructor
  · have hscan : scanLoop maxScanTokenSize [] longLineBody = [str "a.example.com,1.2.3.4"] := by
      unfold longLineBody
      rw [scanLoop_seg _ _ _ _ h1, List.nil_append, scanLoop, if_pos rfl,
        if_pos (by decide), scanLoop_seg _ _ _ _ (replicate_no_newline _), List.nil_append,
        scanLoop, if_pos rfl,
        if_neg (by rw [List.length_replicate]; omega)]
      decide
    unfold subdomainsInHackerTarget
    rw [if_neg (by decide), if_neg (by decide), hscan]
    decide
  · unfold longLineBody
    rw [specLines_seg _ _ _ h1, List.nil_append, specLines, if_pos rfl,
      specLines_seg _ _ _ (replicate_no_newline _), List.nil_append, specLines, if_pos rfl]
    have h3 : (specLines [] (str "b.example.com,5.6.7.8\n")).length = 1 := by decide
    simp only [List.length_cons, h3]

theorem length_le_dropCR (line : List UInt8) : line.length ≤ (dropCR line).length + 1 := by
  unfold dropCR
  split
  · rw [List.length_dropLast]; omega
  · omega

theorem scanLoop_eq_specLines (limit : Nat) (body : List UInt8) :
    ∀ line : List UInt8, (∀ l ∈ specLines line body, l.length + 1 < limit) →
      scanLoop limit line body = specLines line body := by
  induction body with
  | nil =>
    intro line h
    unfold scanLoop specLines
    by_cases hl : line = []
    · simp [hl]
    · have hmem : dropCR line ∈ specLines line [] := by simp [specLines, hl]
      have := h _ hmem
      have := length_le_dropCR line
      rw [if_neg hl, if_neg hl, if_pos (by omega)]
  | cons b rest ih =>
    intro line h
    unfold scanLoop specLines
    by_cases hb : b = 10
    · have hspec : specLines line (b :: rest) = dropCR line :: specLines [] rest := by
        rw [specLines, if_pos hb]
      rw [hspec] at h
      have := h _ (List.mem_cons_self _ _)
      have := length_le_dropCR line
      rw [if_pos hb, if_pos hb, if_pos (by omega),
        ih [] (fun l hl => h l (List.mem_cons_of_mem _ hl))]
    · have hspec : specLines line (b :: rest) = specLines (line ++ [b]) rest := by
        rw [specLines, if_neg hb]
      rw [hspec] at h
      rw [if_neg hb, if_neg hb, ih _ h]

theorem headD_splitN2 (text : GoString) : (splitN2 text).headD [] = beforeComma text := by
  induction text with
  | nil => rfl
  | cons c rest ih =>
    unfold splitN2
    by_cases hc : c = 44
    · simp [hc, beforeComma]
    · rw [if_neg hc]
      have hb : beforeComma (c :: rest) = c :: beforeComma rest := by
        simp [beforeComma, List.takeWhile_cons, hc]
      cases hs : splitN2 rest with
      | nil => rw [hs] at ih; simp [hb, ← ih]
      | cons first more => rw [hs] at ih; simp at ih; simp [hb, ih]

theorem comma_not_mem_beforeComma (line : GoString) : (44 : UInt8) ∉ beforeComma line := by
  intro h
  have := List.mem_takeWhile_imp h
  simp at this

/-- What holds of `subdomainsInHackerTarget` on every body it succeeds on: the
result is non-nil, no item contains a comma and an empty body gives an empty
list; when every line of the body (its carriage return included) is shorter
than the scanner's buffer, the items are the parts before the first comma of
the lines of the body, one per line and in their order. -/
theorem hackerTarget_items (get : HttpGet (List UInt8)) (hget : get.getErr = false)
    (hstatus : get.statusCode = 200) (hread : get.readErr = false) :
    (subdomainsInHackerTarget get).err = none
      ∧ (subdomainsInHackerTarget get).result.isNil = false
      ∧ (∀ item ∈ (subdomainsInHackerTarget get).result.items, (44 : UInt8) ∉ item)
      ∧ (get.body = [] → subdomainsInHackerTarget get = ⟨Slice.mk [], none⟩)
      ∧ ((∀ l ∈ specLines [] get.body, l.length + 1 < maxScanTokenSize) →
          subdomainsInHackerTarget get
            = ⟨Slice.mk ((specLines [] get.body).map beforeComma), none⟩) := by
  have hdef : subdomainsInHackerTarget get
      = ⟨Slice.mk ((scanLoop maxScanTokenSize [] get.body).map beforeComma), none⟩ := by
    unfold subdomainsInHackerTarget
    rw [if_neg (by simp [hget, hstatus]), if_neg (by simp [hread])]
    simp only [headD_splitN2]
  refine ⟨by rw [hdef], by rw [hdef]; rfl, ?_, ?_, ?_⟩
  · intro item hitem
    rw [hdef] at hitem
    simp only [Slice.items_mk, List.mem_map] at hitem
    obtain ⟨line, _, rfl⟩ := hitem
    exact comma_not_mem_beforeComma line
  · intro hbody
    rw [hdef, hbody]
    rfl
  · intro hshort
    rw [hdef, scanLoop_eq_specLines _ _ _ hshort]

/-- The items of a body with a carriage return, an empty line, a line starting with
a comma and a last line without newline. -/
theorem hackerTarget_items_witness :
    subdomainsInHackerTarget
        ⟨false, 200, false, str "a.example.com,1.2.3.4\r\nb.example.com\n\n,5.6.7.8\nlast"⟩
      = ⟨Slice.mk [str "a.example.com", str "b.example.com", [], [], str "last"], none⟩
    ∧ (subdomainsInHackerTarget
        ⟨false, 200, false, str "a.example.com,1.2.3.4\r\nb.example.com\n\n,5.6.7.8\nlast"⟩).err
      = none :=
  ⟨by decide,
    (hackerTarget_items
      ⟨false, 200, false, str "a.example.com,1.2.3.4\r\nb.example.com\n\n,5.6.7.8\nlast"⟩
      rfl rfl rfl).1⟩

/-- One call end to end: HackerTarget answers two lines, ThreatCrowd answers an
object that repeats one of the names; in launch order the caller delivers the
three distinct names. -/
theorem Subdomains_end_to_end :
    (exec (Subdomains
        ⟨⟨false, 200, false, str "a.example.com,1.2.3.4\nb.example.com,5.6.7.8\n"⟩,
          ⟨false, 200, false, some (JSON.object [(str "subdomains",
            JSON.array [JSON.string (str "b.example.com"),
              JSON.string (str "c.example.com")])])⟩⟩)
        (launchOrder 2)).map outputs
      = some [Slice.mk [str "a.example.com", str "b.example.com", str "c.example.com"]] := by
  decide

end Subdomainer
